import Mathlib

/-!
Verification of the CoinChrono core (src/coin_chrono.py): the age-weighting
computation `compute_age` and the classification/grouping logic of `main`.

Numeric semantics: the Python source uses floating point; following the
spec's numeric-semantics note ("fixed-point or high-precision decimal
recommended over naive floating point"), amounts, ages and averages are
embedded in exact rational arithmetic (`ℚ`).  Python's true division
raises `ZeroDivisionError` on a zero divisor; this is embedded as an
`Option`-valued division (`pydiv`).

The source's `compute_age` reads the reference instant from the system
clock (`now = datetime.now(timezone.utc)`, line 58).  In the embedding the
value obtained from that clock read is passed explicitly as the `clock`
argument (seconds since the epoch, as a rational).
-/

set_option autoImplicit false

namespace CoinChrono

/-- A transfer record as consumed by `compute_age` and the grouping loop of
`main`: the fields `timeStamp`, `value`, `tokenDecimal` (absent on
native-currency transactions, hence `Option`), `to`, `contractAddress` and
`tokenSymbol` of the Etherscan record dictionaries. -/
structure Tx where
  timeStamp : Int
  value : Int
  tokenDecimal : Option Nat
  «to» : String
  contractAddress : String
  tokenSymbol : String
deriving DecidableEq

/-- Line 64: `amount = int(ev["value"]) / (10 ** int(ev.get("tokenDecimal", 18)))`. -/
def amount (ev : Tx) : ℚ := (ev.value : ℚ) / 10 ^ ev.tokenDecimal.getD 18

/-- Lines 62–63: `age_days = (now - ts).total_seconds() / 86400.0`, where
`clock` is the value read from the system clock at line 58. -/
def age_days (clock : ℚ) (ev : Tx) : ℚ := (clock - (ev.timeStamp : ℚ)) / 86400

/-- The two accumulators of the loop in `compute_age` (lines 59–66):
`total_amount` and `total_age` (the sum of `amount * age_in_days`). -/
structure Acc where
  total_amount : ℚ
  total_age : ℚ
deriving DecidableEq

/-- One iteration of the loop body, lines 61–66. -/
def stepEv (clock : ℚ) (acc : Acc) (ev : Tx) : Acc :=
  { total_amount := acc.total_amount + amount ev
    total_age := acc.total_age + amount ev * age_days clock ev }

/-- Python true division: `ZeroDivisionError` on a zero divisor is
embedded as `none`. -/
def pydiv (a b : ℚ) : Option ℚ := if b = 0 then none else some (a / b)

/-- `compute_age` (lines 53–69): run the accumulation loop over `events`,
return `0.0` when the accumulated total amount is zero, otherwise
`total_age / total_amount`. -/
def compute_age (clock : ℚ) (events : List Tx) : Option ℚ :=
  let acc := events.foldl (stepEv clock) ⟨0, 0⟩
  if acc.total_amount = 0 then some 0 else pydiv acc.total_age acc.total_amount

/-- Closed-form total amount of a group: the sum over records of
`rawAmount / 10^decimals`. -/
def total_amount_of (events : List Tx) : ℚ := (events.map amount).sum

/-- Closed-form weighted age sum of a group: the sum over records of
`amount * ageDays`. -/
def total_age_of (clock : ℚ) (events : List Tx) : ℚ :=
  (events.map (fun ev => amount ev * age_days clock ev)).sum

theorem foldl_stepEv (clock : ℚ) (events : List Tx) (a : Acc) :
    events.foldl (stepEv clock) a =
      ⟨a.total_amount + total_amount_of events,
       a.total_age + total_age_of clock events⟩ := by
  induction events generalizing a with
  | nil => simp [total_amount_of, total_age_of]
  | cons e es ih =>
      simp only [List.foldl_cons, ih, total_amount_of, total_age_of, List.map_cons,
        List.sum_cons, stepEv, Acc.mk.injEq]
      constructor <;> ring

/-- `compute_age` equals its closed-form description: `0.0` on a group of
zero total amount, and the weighted average otherwise. -/
theorem compute_age_eq (clock : ℚ) (events : List Tx) :
    compute_age clock events =
      if total_amount_of events = 0 then some 0
      else some (total_age_of clock events / total_amount_of events) := by
  rw [compute_age, foldl_stepEv]
  by_cases h : total_amount_of events = 0 <;> simp [pydiv, h]

/-- Python `str.lower()`: lowercase every character (addresses are ASCII, on
which per-character lowering agrees with Python). -/
def pylower (s : String) : List Char := s.data.map Char.toLower

/-- The recipient test used at line 86 (`tx["to"].lower() == args.address.lower()`,
native currency) and at line 94 (token transfers). -/
def incoming (address : String) (tx : Tx) : Bool :=
  pylower tx.to == pylower address

/-- Line 86: `eth_in = [tx for tx in eth_txs if tx["to"].lower() == args.address.lower()]`. -/
def eth_in (address : String) (eth_txs : List Tx) : List Tx :=
  eth_txs.filter (incoming address)

/-- The grouping key of line 96: `(tx["contractAddress"], tx["tokenSymbol"], tx["tokenDecimal"])`. -/
abbrev AssetKey := String × String × Option Nat

/-- Key extraction of line 96. -/
def assetKey (tx : Tx) : AssetKey := (tx.contractAddress, tx.tokenSymbol, tx.tokenDecimal)

/-- Line 97: `by_token.setdefault(key, []).append(tx)`.  A Python dict keeps
keys in insertion order, so `by_token` is embedded as an ordered association
list; a new key is appended at the end, an existing key has the record
appended to its group. -/
def insertTx (groups : List (AssetKey × List Tx)) (tx : Tx) : List (AssetKey × List Tx) :=
  match groups with
  | [] => [(assetKey tx, [tx])]
  | (k, evs) :: rest =>
      if k = assetKey tx then (k, evs ++ [tx]) :: rest
      else (k, evs) :: insertTx rest tx

/-- The grouping loop of lines 92–97: skip records whose recipient does not
match, insert the rest keyed by the `(contractAddress, tokenSymbol,
tokenDecimal)` triple. -/
def by_token (address : String) (token_txs : List Tx) : List (AssetKey × List Tx) :=
  (token_txs.filter (incoming address)).foldl insertTx []

/-- One output row of the report (lines 100 and 105): asset label, balance
and average hold in days; the formatting of the two numbers to fixed
precision is display glue and is not modelled. -/
structure Row where
  asset : String
  balance : ℚ
  avg : Option ℚ
deriving DecidableEq

/-- Line 100: `sum(int(tx["value"]) for tx in eth_in) / (10**18)`. -/
def eth_balance (evs : List Tx) : ℚ := ((evs.map Tx.value).sum : ℚ) / 10 ^ 18

/-- Lines 102–105: one row per token group, labelled by the symbol of the
key, with balance `sum(values) / 10**int(dec)`.  (`dec` comes from the
grouping key and is always present for token records; the `getD 18`
default is never exercised on a well-formed token group.) -/
def token_row (clock : ℚ) (g : AssetKey × List Tx) : Row :=
  { asset := g.1.2.1
    balance := ((g.2.map Tx.value).sum : ℚ) / 10 ^ g.1.2.2.getD 18
    avg := compute_age clock g.2 }

/-- Lines 99–105: the report data rows, the fixed ETH row first, then one
row per token group in the order the groups were created (the header row of
line 99 is display glue and is not modelled). -/
def report (address : String) (clock : ℚ) (eth_txs token_txs : List Tx) : List Row :=
  { asset := "ETH", balance := eth_balance (eth_in address eth_txs)
    avg := compute_age clock (eth_in address eth_txs) } ::
    (by_token address token_txs).map (token_row clock)

/-- The distinct elements of a list in order of first occurrence (skipping
those already in `seen`): the key insertion order of a Python dict built by
`setdefault`. -/
def firstObserved (seen : List AssetKey) : List AssetKey → List AssetKey
  | [] => []
  | k :: ks =>
      if k ∈ seen then firstObserved seen ks
      else k :: firstObserved (k :: seen) ks

/-! Concrete records used in scenarios and witnesses. -/

/-- Amount 100 (decimals 0), age 10 days under a clock reading of 864000 s. -/
def ev100 : Tx := ⟨0, 100, some 0, "0xabc", "", ""⟩

/-- Amount 300 (decimals 0), age 2 days under a clock reading of 864000 s. -/
def ev300 : Tx := ⟨691200, 300, some 0, "0xabc", "", ""⟩

/-- Amount 1 (decimals 0), timestamp 0. -/
def txA : Tx := ⟨0, 1, some 0, "0xabc", "", ""⟩

/-- Same timeStamp, value and tokenDecimal as `txA`, different recipient. -/
def txB : Tx := ⟨0, 1, some 0, "0xDEF", "", ""⟩

/-- A native-currency record: no tokenDecimal field. -/
def txEth : Tx := ⟨0, 2, none, "0xabc", "", ""⟩

/-- rawAmount -5 (decimals 0), age 1 day under a clock reading of 86400 s. -/
def txNeg : Tx := ⟨0, -5, some 0, "0xabc", "", ""⟩

/-- rawAmount 10 (decimals 0), age half a day under a clock reading of 86400 s. -/
def txPos : Tx := ⟨43200, 10, some 0, "0xabc", "", ""⟩

/-- C1: a group whose total amount is zero — in particular the empty group —
yields average age exactly 0 and no error; a group with positive total
amount yields weightedAgeSum / totalAmount. -/
theorem zero_total_gives_zero_average (clock : ℚ) (events : List Tx) :
    (total_amount_of events = 0 → compute_age clock events = some 0)
    ∧ (0 < total_amount_of events →
        compute_age clock events =
          some (total_age_of clock events / total_amount_of events)) := by
  rw [compute_age_eq]
  constructor
  · intro h
    simp [h]
  · intro h
    simp [h.ne']

theorem zero_total_gives_zero_average_witness :
    compute_age 86400 ([] : List Tx) = some 0
    ∧ compute_age 86400 [txA]
        = some (total_age_of 86400 [txA] / total_amount_of [txA]) :=
  ⟨(zero_total_gives_zero_average 86400 []).1 (by simp [total_amount_of]),
   (zero_total_gives_zero_average 86400 [txA]).2
     (by norm_num [total_amount_of, amount, txA])⟩

/-- C2: the loop accumulates `totalAmount = Σ rawAmount / 10^decimals` and
`weightedAgeSum = Σ amount * ageDays` with `ageDays = (now - timestamp)/86400`,
and a non-zero total yields their quotient; the reference scenario (amounts
100 and 300, ages 10 and 2 days) yields exactly 4. -/
theorem weighted_average_correct (clock : ℚ) (events : List Tx) :
    (events.foldl (stepEv clock) ⟨0, 0⟩).total_amount = total_amount_of events
    ∧ (events.foldl (stepEv clock) ⟨0, 0⟩).total_age = total_age_of clock events
    ∧ (total_amount_of events ≠ 0 →
        compute_age clock events =
          some (total_age_of clock events / total_amount_of events))
    ∧ compute_age 864000 [ev100, ev300] = some 4 := by
  refine ⟨?_, ?_, ?_, ?_⟩
  · rw [foldl_stepEv]
    simp
  · rw [foldl_stepEv]
    simp
  · intro h
    rw [compute_age_eq]
    simp [h]
  · norm_num [compute_age, stepEv, amount, age_days, pydiv, ev100, ev300]

theorem weighted_average_correct_witness :
    compute_age 864000 [ev100, ev300]
      = some (total_age_of 864000 [ev100, ev300] / total_amount_of [ev100, ev300]) :=
  (weighted_average_correct 864000 [ev100, ev300]).2.2.1
    (by norm_num [total_amount_of, amount, ev100, ev300])

/-- C7: aggregation is invariant under permutation of the records of a
group. -/
theorem perm_invariant (clock : ℚ) (l1 l2 : List Tx) (h : l1.Perm l2) :
    compute_age clock l1 = compute_age clock l2 := by
  have ha : total_amount_of l1 = total_amount_of l2 := by
    simp only [total_amount_of]
    exact (h.map amount).sum_eq
  have hg : total_age_of clock l1 = total_age_of clock l2 := by
    simp only [total_age_of]
    exact (h.map _).sum_eq
  rw [compute_age_eq, compute_age_eq, ha, hg]

theorem perm_invariant_witness :
    compute_age 864000 [ev100, ev300] = compute_age 864000 [ev300, ev100] :=
  perm_invariant 864000 [ev100, ev300] [ev300, ev100]
    (List.Perm.swap ev300 ev100 [])

/-- C9: a record lacking the tokenDecimal field is scaled by 10^18: the
missing field defaults to 18, both for the record taken alone and for its
contribution to a group total. -/
theorem missing_decimals_default (ev : Tx) (evs : List Tx)
    (h : ev.tokenDecimal = none) :
    amount ev = (ev.value : ℚ) / 10 ^ 18
    ∧ total_amount_of (ev :: evs) = (ev.value : ℚ) / 10 ^ 18 + total_amount_of evs := by
  have ha : amount ev = (ev.value : ℚ) / 10 ^ 18 := by
    simp [amount, h]
  exact ⟨ha, by simp [total_amount_of, ha]⟩

theorem missing_decimals_default_witness :
    amount txEth = ((txEth.value : ℚ)) / 10 ^ 18
    ∧ total_amount_of [txEth] = ((txEth.value : ℚ)) / 10 ^ 18 + total_amount_of [] :=
  missing_decimals_default txEth [] rfl

/-- C10: the aggregator is total on well-formed input: it always returns a
value, and the division of line 69 is only reached with a non-zero
divisor. -/
theorem compute_age_total (clock : ℚ) (events : List Tx) :
    (compute_age clock events).isSome = true := by
  rw [compute_age_eq]
  by_cases h : total_amount_of events = 0 <;> simp [h]

/-- C3 counterexample: in the source `now` is not supplied by the caller —
line 58 reads the system clock inside `compute_age` — so the
caller-supplied arguments (the events alone) do not determine the result:
the same group gives average 10 days when the internal clock read returns
864000 s and 20 days when it returns 1728000 s. -/
theorem clock_not_explicit_counterexample :
    compute_age 864000 [txA] ≠ compute_age 1728000 [txA] := by
  norm_num [compute_age, stepEv, amount, age_days, pydiv, txA]

/-- C3 amended: `compute_age` reads the reference instant from the system
clock internally (line 58) rather than taking it from the caller; modelling
that clock reading as an explicit input, the aggregator is deterministic —
the result depends only on the clock value and on each record's timeStamp,
value and tokenDecimal fields. -/
theorem deterministic_given_clock (clock : ℚ) (l1 l2 : List Tx)
    (h : List.Forall₂ (fun a b : Tx =>
      a.timeStamp = b.timeStamp ∧ a.value = b.value
        ∧ a.tokenDecimal = b.tokenDecimal) l1 l2) :
    compute_age clock l1 = compute_age clock l2 := by
  have key : total_amount_of l1 = total_amount_of l2
      ∧ total_age_of clock l1 = total_age_of clock l2 := by
    induction h with
    | nil => exact ⟨rfl, rfl⟩
    | @cons a b la lb hab htl ih =>
        obtain ⟨ht, hv, hd⟩ := hab
        have hA : amount a = amount b := by
          simp [amount, hv, hd]
        have hG : age_days clock a = age_days clock b := by
          simp [age_days, ht]
        simp only [total_amount_of, total_age_of, List.map_cons, List.sum_cons] at ih ⊢
        rw [hA, hG, ih.1, ih.2]
        exact ⟨rfl, rfl⟩
  rw [compute_age_eq, compute_age_eq, key.1, key.2]

theorem deterministic_given_clock_witness :
    compute_age 864000 [txA] = compute_age 864000 [txB] :=
  deterministic_given_clock 864000 [txA] [txB]
    (List.Forall₂.cons ⟨rfl, rfl, rfl⟩ List.Forall₂.nil)

/-- C4 counterexample: on a group containing a record with rawAmount -5 the
source raises and returns no error: it returns the ordinary average 0 (the
negative record contributes -5·1, the other 10·(1/2), to the weighted sum).
The record is silently included: with it omitted the result would be 1/2. -/
theorem negative_amount_counterexample :
    compute_age 86400 [txNeg, txPos] = some 0
    ∧ compute_age 86400 [txPos] = some (1 / 2) := by
  constructor <;> norm_num [compute_age, stepEv, amount, age_days, pydiv, txNeg, txPos]

/-- C4 amended: `compute_age` performs no input validation: a record with
negative or zero rawAmount is silently included in both accumulators, and
no error is raised on such a group. -/
theorem nonpositive_silently_included (clock : ℚ) (ev : Tx) (evs : List Tx)
    (h : ev.value ≤ 0) :
    total_amount_of (ev :: evs) = amount ev + total_amount_of evs
    ∧ total_age_of clock (ev :: evs)
        = amount ev * age_days clock ev + total_age_of clock evs
    ∧ (compute_age clock (ev :: evs)).isSome = true := by
  refine ⟨by simp [total_amount_of], by simp [total_age_of], ?_⟩
  rw [compute_age_eq]
  by_cases h0 : total_amount_of (ev :: evs) = 0 <;> simp [h0]

/-! Lemmas about the grouping fold of lines 92–97. -/

theorem insertTx_mem_sound (tx : Tx) (groups : List (AssetKey × List Tx)) :
    ∀ p ∈ insertTx groups tx, ∀ ev ∈ p.2,
      (∃ evs0, (p.1, evs0) ∈ groups ∧ ev ∈ evs0) ∨ (ev = tx ∧ p.1 = assetKey tx) := by
  induction groups with
  | nil =>
      intro p hp ev hev
      simp only [insertTx, List.mem_singleton] at hp
      subst hp
      simp only [List.mem_singleton] at hev
      exact Or.inr ⟨hev, rfl⟩
  | cons q rest ih =>
      obtain ⟨k0, evs0⟩ := q
      intro p hp ev hev
      by_cases hk : k0 = assetKey tx
      · rw [insertTx, if_pos hk] at hp
        rcases List.mem_cons.mp hp with hp | hp
        · subst hp
          simp only [List.mem_append, List.mem_singleton] at hev
          rcases hev with hev | hev
          · exact Or.inl ⟨evs0, List.mem_cons_self _ _, hev⟩
          · exact Or.inr ⟨hev, hk⟩
        · exact Or.inl ⟨p.2, List.mem_cons_of_mem _ (by simpa using hp), hev⟩
      · rw [insertTx, if_neg hk] at hp
        rcases List.mem_cons.mp hp with hp | hp
        · subst hp
          exact Or.inl ⟨evs0, List.mem_cons_self _ _, hev⟩
        · rcases ih p hp ev hev with ⟨evs1, h1, hev1⟩ | h
          · exact Or.inl ⟨evs1, List.mem_cons_of_mem _ h1, hev1⟩
          · exact Or.inr h

theorem insertTx_mem_mono (tx : Tx) (groups : List (AssetKey × List Tx)) :
    ∀ k evs, (k, evs) ∈ groups → ∀ ev ∈ evs,
      ∃ evs2, (k, evs2) ∈ insertTx groups tx ∧ ev ∈ evs2 := by
  induction groups with
  | nil => simp
  | cons q rest ih =>
      obtain ⟨k0, evs0⟩ := q
      intro k evs hmem ev hev
      by_cases hk : k0 = assetKey tx
      · rw [insertTx, if_pos hk]
        rcases List.mem_cons.mp hmem with h | h
        · injection h with h1 h2
          subst h1
          subst h2
          exact ⟨evs ++ [tx], List.mem_cons_self _ _, List.mem_append_left _ hev⟩
        · exact ⟨evs, List.mem_cons_of_mem _ h, hev⟩
      · rw [insertTx, if_neg hk]
        rcases List.mem_cons.mp hmem with h | h
        · refine ⟨evs, ?_, hev⟩
          rw [h]
          exact List.mem_cons_self _ _
        · obtain ⟨evs2, h2, hev2⟩ := ih k evs h ev hev
          exact ⟨evs2, List.mem_cons_of_mem _ h2, hev2⟩

theorem insertTx_mem_self (tx : Tx) (groups : List (AssetKey × List Tx)) :
    ∃ evs, (assetKey tx, evs) ∈ insertTx groups tx ∧ tx ∈ evs := by
  induction groups with
  | nil => exact ⟨[tx], by simp [insertTx], List.mem_singleton_self _⟩
  | cons q rest ih =>
      obtain ⟨k0, evs0⟩ := q
      by_cases hk : k0 = assetKey tx
      · refine ⟨evs0 ++ [tx], ?_, List.mem_append_right _ (List.mem_singleton_self _)⟩
        rw [insertTx, if_pos hk, hk]
        exact List.mem_cons_self _ _
      · obtain ⟨evs, hmem, htx⟩ := ih
        refine ⟨evs, ?_, htx⟩
        rw [insertTx, if_neg hk]
        exact List.mem_cons_of_mem _ hmem

theorem foldl_insertTx_mono (l : List Tx) :
    ∀ groups k evs, (k, evs) ∈ groups → ∀ ev ∈ evs,
      ∃ evs2, (k, evs2) ∈ l.foldl insertTx groups ∧ ev ∈ evs2 := by
  induction l with
  | nil =>
      intro groups k evs h ev hev
      exact ⟨evs, h, hev⟩
  | cons t l ih =>
      intro groups k evs h ev hev
      simp only [List.foldl_cons]
      obtain ⟨evs1, h1, hev1⟩ := insertTx_mem_mono t groups k evs h ev hev
      exact ih (insertTx groups t) k evs1 h1 ev hev1

theorem foldl_insertTx_complete (l : List Tx) :
    ∀ groups tx, tx ∈ l →
      ∃ evs, (assetKey tx, evs) ∈ l.foldl insertTx groups ∧ tx ∈ evs := by
  induction l with
  | nil => simp
  | cons t l ih =>
      intro groups tx htx
      simp only [List.foldl_cons]
      rcases List.mem_cons.mp htx with h | h
      · subst h
        obtain ⟨evs1, h1, htx1⟩ := insertTx_mem_self tx groups
        exact foldl_insertTx_mono l (insertTx groups tx) (assetKey tx) evs1 h1 tx htx1
      · exact ih (insertTx groups t) tx h

theorem foldl_insertTx_sound (l : List Tx) :
    ∀ groups p, p ∈ l.foldl insertTx groups → ∀ ev ∈ p.2,
      (∃ evs0, (p.1, evs0) ∈ groups ∧ ev ∈ evs0) ∨ (ev ∈ l ∧ p.1 = assetKey ev) := by
  induction l with
  | nil =>
      intro groups p hp ev hev
      exact Or.inl ⟨p.2, by simpa using hp, hev⟩
  | cons t l ih =>
      intro groups p hp ev hev
      simp only [List.foldl_cons] at hp
      rcases ih (insertTx groups t) p hp ev hev with ⟨evs0, h0, hev0⟩ | h
      · rcases insertTx_mem_sound t groups (p.1, evs0) h0 ev hev0 with ⟨evs1, h1, hev1⟩ | h
        · exact Or.inl ⟨evs1, h1, hev1⟩
        · refine Or.inr ⟨?_, ?_⟩
          · rw [h.1]
            exact List.mem_cons_self _ _
          · rw [h.1]
            exact h.2
      · exact Or.inr ⟨List.mem_cons_of_mem _ h.1, h.2⟩

theorem nonpositive_silently_included_witness :
    total_amount_of [txNeg, txPos] = amount txNeg + total_amount_of [txPos]
    ∧ total_age_of 86400 [txNeg, txPos]
        = amount txNeg * age_days 86400 txNeg + total_age_of 86400 [txPos]
    ∧ (compute_age 86400 [txNeg, txPos]).isSome = true :=
  nonpositive_silently_included 86400 txNeg [txPos] (by norm_num [txNeg])

theorem firstObserved_congr (l : List AssetKey) :
    ∀ s1 s2, (∀ x, x ∈ s1 ↔ x ∈ s2) → firstObserved s1 l = firstObserved s2 l := by
  induction l with
  | nil =>
      intro s1 s2 _
      rfl
  | cons k ks ih =>
      intro s1 s2 h
      rw [firstObserved, firstObserved]
      by_cases hk : k ∈ s1
      · rw [if_pos hk, if_pos ((h k).mp hk)]
        exact ih s1 s2 h
      · rw [if_neg hk, if_neg (fun hc => hk ((h k).mpr hc))]
        refine congrArg _ (ih _ _ ?_)
        intro x
        simp [h x]

theorem firstObserved_nodup (l : List AssetKey) :
    ∀ seen, (firstObserved seen l).Nodup ∧ ∀ k ∈ firstObserved seen l, k ∉ seen := by
  induction l with
  | nil =>
      intro seen
      exact ⟨List.nodup_nil, by simp [firstObserved]⟩
  | cons k ks ih =>
      intro seen
      rw [firstObserved]
      by_cases hk : k ∈ seen
      · rw [if_pos hk]
        exact ih seen
      · rw [if_neg hk]
        obtain ⟨hnd, hni⟩ := ih (k :: seen)
        refine ⟨List.nodup_cons.mpr ⟨?_, hnd⟩, ?_⟩
        · intro hc
          exact hni k hc (List.mem_cons_self _ _)
        · intro x hx
          rcases List.mem_cons.mp hx with rfl | hx
          · exact hk
          · intro hc
            exact hni x hx (List.mem_cons_of_mem _ hc)

theorem insertTx_keys (groups : List (AssetKey × List Tx)) (tx : Tx) :
    (insertTx groups tx).map Prod.fst =
      if assetKey tx ∈ groups.map Prod.fst then groups.map Prod.fst
      else groups.map Prod.fst ++ [assetKey tx] := by
  induction groups with
  | nil => simp [insertTx]
  | cons q rest ih =>
      obtain ⟨k0, evs0⟩ := q
      by_cases hk : k0 = assetKey tx
      · rw [insertTx, if_pos hk]
        simp [hk]
      · rw [insertTx, if_neg hk]
        by_cases hmem : assetKey tx ∈ rest.map Prod.fst
        · simp [hmem, ih, Ne.symm hk]
        · simp [hmem, ih, Ne.symm hk]

theorem foldl_insertTx_keys (l : List Tx) :
    ∀ groups, (l.foldl insertTx groups).map Prod.fst =
      groups.map Prod.fst ++
        firstObserved (groups.map Prod.fst) (l.map assetKey) := by
  induction l with
  | nil =>
      intro groups
      simp [firstObserved]
  | cons t l ih =>
      intro groups
      simp only [List.foldl_cons, List.map_cons]
      rw [ih (insertTx groups t), insertTx_keys, firstObserved]
      by_cases hmem : assetKey t ∈ groups.map Prod.fst
      · rw [if_pos hmem, if_pos hmem]
      · rw [if_neg hmem, if_neg hmem, List.append_assoc, List.singleton_append]
        refine congrArg _ (congrArg _ (firstObserved_congr _ _ _ ?_))
        intro x
        simp [or_comm]

/-- Recipient "0xABC", the mixed-case scenario record. -/
def txUpper : Tx := ⟨0, 1, some 0, "0xABC", "", ""⟩

/-- Token record: contract "0xc", symbol "T", 6 decimals. -/
def tok6 : Tx := ⟨0, 5, some 6, "0xABC", "0xc", "T"⟩

/-- Token record: same contract and symbol as `tok6`, but 8 decimals. -/
def tok8 : Tx := ⟨100, 7, some 8, "0xabc", "0xc", "T"⟩

/-- C5: classification retains exactly the records whose recipient equals
the address under case-insensitive comparison — membership in the native
group is equivalent to recipient match, every record of every token group
matches — and a record with recipient "0xABC" is retained for the query
address "0xabc". -/
theorem classification_case_insensitive (address : String) (txs : List Tx) (tx : Tx) :
    (tx ∈ eth_in address txs ↔ tx ∈ txs ∧ pylower tx.to = pylower address)
    ∧ (∀ p ∈ by_token address txs, ∀ ev ∈ p.2, pylower ev.to = pylower address)
    ∧ incoming "0xabc" txUpper = true := by
  refine ⟨?_, ?_, by decide⟩
  · simp [eth_in, incoming, List.mem_filter]
  · intro p hp ev hev
    rcases foldl_insertTx_sound _ _ p hp ev hev with ⟨evs0, h0, _⟩ | h
    · simp at h0
    · have := List.of_mem_filter h.1
      simpa [incoming] using this

theorem classification_case_insensitive_witness :
    txUpper ∈ eth_in "0xabc" [txUpper] ∧ incoming "0xabc" txUpper = true :=
  ⟨(classification_case_insensitive "0xabc" [txUpper] txUpper).1.mpr
      ⟨List.mem_singleton_self _, by decide⟩,
   (classification_case_insensitive "0xabc" [txUpper] txUpper).2.2⟩

/-- C6: token grouping keys on the full (contractAddress, symbol, decimals)
triple: two incoming records with the same contract but different declared
decimals land in groups with different keys. -/
theorem decimals_split_groups (address : String) (txs : List Tx) (t1 t2 : Tx)
    (h1 : t1 ∈ txs) (h2 : t2 ∈ txs)
    (hin1 : incoming address t1 = true) (hin2 : incoming address t2 = true)
    (hc : t1.contractAddress = t2.contractAddress)
    (hd : t1.tokenDecimal ≠ t2.tokenDecimal) :
    ∃ g1 ∈ by_token address txs, t1 ∈ g1.2 ∧
      ∃ g2 ∈ by_token address txs, t2 ∈ g2.2 ∧ g1.1 ≠ g2.1 := by
  obtain ⟨evs1, hm1, ht1⟩ :=
    foldl_insertTx_complete (txs.filter (incoming address)) [] t1
      (List.mem_filter.mpr ⟨h1, hin1⟩)
  obtain ⟨evs2, hm2, ht2⟩ :=
    foldl_insertTx_complete (txs.filter (incoming address)) [] t2
      (List.mem_filter.mpr ⟨h2, hin2⟩)
  refine ⟨(assetKey t1, evs1), hm1, ht1, (assetKey t2, evs2), hm2, ht2, ?_⟩
  intro hEq
  exact hd (congrArg (fun k => k.2.2) hEq)

theorem decimals_split_groups_witness :
    ∃ g1 ∈ by_token "0xabc" [tok6, tok8], tok6 ∈ g1.2 ∧
      ∃ g2 ∈ by_token "0xabc" [tok6, tok8], tok8 ∈ g2.2 ∧ g1.1 ≠ g2.1 :=
  decimals_split_groups "0xabc" [tok6, tok8] tok6 tok8
    (by decide) (by decide) (by decide) (by decide) rfl (by decide)

/-- C8: the report is the fixed native-currency row followed by exactly one
row per distinct token asset key observed among the incoming records, in
the order each key was first observed. -/
theorem report_rows_structure (address : String) (clock : ℚ) (eth_txs token_txs : List Tx) :
    report address clock eth_txs token_txs
      = { asset := "ETH", balance := eth_balance (eth_in address eth_txs)
          avg := compute_age clock (eth_in address eth_txs) } ::
          (by_token address token_txs).map (token_row clock)
    ∧ (by_token address token_txs).map Prod.fst
        = firstObserved [] ((token_txs.filter (incoming address)).map assetKey)
    ∧ ((by_token address token_txs).map Prod.fst).Nodup := by
  have h2 : (by_token address token_txs).map Prod.fst
      = firstObserved [] ((token_txs.filter (incoming address)).map assetKey) := by
    rw [by_token, foldl_insertTx_keys]
    simp
  refine ⟨rfl, h2, ?_⟩
  rw [h2]
  exact (firstObserved_nodup _ []).1

end CoinChrono
